import Mathlib

/-!
Shallow embedding of `src/BloombergSimulation.py` (the Monte Carlo
trading-competition simulator) and verification of the frozen claims.

Modelling conventions:
* Python floats are modelled as exact rationals `ℚ` wherever the source only
  uses field operations and comparisons; the two places where the source takes
  a square root (`np.std` and `math.sqrt` inside the Sharpe ratio) are modelled
  in `ℝ` with `Real.sqrt`.
* `np.random.normal(mu, sigma)` is modelled as `mu + sigma * z` where `z` is
  the next value of an unconstrained external draw stream `g : ℕ → ℚ`
  (a Gaussian sample is its standard-normal sample scaled by `sigma`).
  `np.random.randint(0, n)` is modelled as `ri k % n` from a second
  unconstrained stream `ri : ℕ → ℕ`.  A counter in the trial state records how
  many draws have been consumed, so draw order is explicit.
* Fallible numpy operations (`.item()` on a size-≠-1 array, `argpartition`
  with an out-of-range `kth`, an unrecognized strategy string) are modelled
  with `Except String`.
-/

/-- Resolved run parameters (source lines 38-57): the daily volatilities
`maxVol`/`minVol` (line 51-53), daily risk-free return and daily drift
(lines 55-57) are taken as already-derived inputs, as are the integer
parameters of the command line. -/
structure Config where
  annual_trading_days : ℕ
  maxVol : ℚ
  minVol : ℚ
  riskFreeReturn : ℚ
  drift : ℚ
  opponent_strategy : String
  num_portfolio_return_distributions : ℕ
  num_teams : ℕ
  simulation_length_days : ℕ
  trials : ℕ
  deriving DecidableEq

/-- Source line 103/112/137: `max(-1, min(x, 1))`, the clamp of a drawn
return to the closed interval [-1, 1]. -/
def clip (x : ℚ) : ℚ := max (-1) (min x 1)

/-- `np.mean` of a one-dimensional array (empty array gives 0/0 = 0 here,
where numpy would give nan; no claim touches the empty case). -/
def npMeanQ (l : List ℚ) : ℚ := l.sum / (l.length : ℚ)

/-- The variance computed by `np.std(l, ddof=d)` before the square root:
sum of squared deviations from the mean divided by `N - ddof`
(ℕ-subtraction; `N ≤ ddof` gives a 0 denominator and hence 0, where numpy
would give nan or raise — no claim touches that case). -/
def npVarQ (ddof : ℕ) (l : List ℚ) : ℚ :=
  ((l.map (fun x => (x - npMeanQ l) ^ 2)).sum) / ((l.length - ddof : ℕ) : ℚ)

/-- `np.std(l, ddof=d)`: square root of `npVarQ`. -/
noncomputable def npStdQ (ddof : ℕ) (l : List ℚ) : ℝ :=
  Real.sqrt ((npVarQ ddof l : ℚ) : ℝ)

/-- One team's annualized Sharpe ratio:
`np.mean(row - rf) / np.std(row - rf, ddof) * math.sqrt(A)`.
Source line 160 uses `ddof = 1`, source line 177 uses numpy's default
`ddof = 0`. -/
noncomputable def sharpe (A : ℕ) (rf : ℚ) (ddof : ℕ) (row : List ℚ) : ℝ :=
  (((npMeanQ (row.map (fun x => x - rf))) : ℝ) /
      npStdQ ddof (row.map (fun x => x - rf))) * Real.sqrt (A : ℝ)

/-- Source line 160: per-team in-trial Sharpe ratios over a window matrix,
with Bessel's correction (`ddof=1`). -/
noncomputable def sharpeVec (A : ℕ) (rf : ℚ) (hist : List (List ℚ)) : List ℝ :=
  hist.map (sharpe A rf 1)

/-- Source line 177: per-team terminal Sharpe ratios over the full history,
with numpy's default `ddof=0` (population standard deviation). -/
noncomputable def sharpeRatioFinal (A : ℕ) (rf : ℚ) (hist : List (List ℚ)) : List ℝ :=
  hist.map (sharpe A rf 0)

/-- Source line 60: `np.linspace(minVol, maxVol, num)`. -/
def npLinspace (a b : ℚ) (num : ℕ) : List ℚ :=
  if num = 0 then []
  else if num = 1 then [a]
  else (List.range num).map (fun i => a + (b - a) * (i : ℚ) / ((num - 1 : ℕ) : ℚ))

/-- `.item()` on the index array produced by `np.where`: succeeds only when
the array has exactly one element (source lines 150, 153, 164, 165, 173,
183). -/
def npItem (l : List ℕ) : Except String ℕ :=
  match l with
  | [i] => .ok i
  | _ => .error ("can only convert an array of size 1 to a Python scalar")

/-- `np.where(l == v)[0]`: the list of positions holding the value `v`. -/
def npWhereEq {α : Type} [DecidableEq α] [Inhabited α] (l : List α) (v : α) : List ℕ :=
  (List.range l.length).filter (fun i => l.getD i default = v)

/-- Maximum of a nonempty array (`max(...)` over a numpy array); 0-like
default for the empty array, which no claim reaches. -/
def npMaxD {α : Type} [LinearOrder α] [Inhabited α] (l : List α) : α :=
  l.maximum.unbot' default

/-- The second-largest value of an array counted with multiplicity: the
maximum after removing one occurrence of the maximum.  For any valid outcome
of `np.argpartition(l, -2)[-2:]` — a pair of positions carrying the two
largest values as a multiset — `min` over that pair is exactly this value,
and `max` over it is `npMaxD l`. -/
def npSecondD {α : Type} [LinearOrder α] [Inhabited α] [DecidableEq α] (l : List α) : α :=
  npMaxD (l.erase (npMaxD l))

/-- Source lines 149-153 (and 163-165, at `ℝ`): take the top-two partition,
then `teamInd1 = np.where(l == max(l[partition]))[0].item()` and
`teamInd2 = np.where(l == min(l[partition]))[0].item()`.  `argpartition`
with `kth = -2` raises for arrays of fewer than 2 entries; `.item()` raises
whenever the matching value occurs other than exactly once.  The first
`.item()` is evaluated before the second, so its error dominates. -/
def argpartTop2 {α : Type} [LinearOrder α] [Inhabited α] [DecidableEq α] (l : List α) :
    Except String (ℕ × ℕ) :=
  if l.length < 2 then .error ("kth(=-2) out of bounds")
  else
    match npItem (npWhereEq l (npMaxD l)), npItem (npWhereEq l (npSecondD l)) with
    | .ok i1, .ok i2 => .ok (i1, i2)
    | .error e, _ => .error e
    | .ok _, .error e => .error e

/-- Per-trial mutable state: wealth array (line 83), return-history matrix
(line 86), the four leaderboard indices (lines 89-92), and the count of
random draws consumed so far (the position in the global numpy stream). -/
structure TrialState where
  earnings : List ℚ
  hist : List (List ℚ)
  teamInd1E : ℕ
  teamInd2E : ℕ
  teamInd1SR : ℕ
  teamInd2SR : ℕ
  rng : ℕ
  deriving DecidableEq

/-- Source line 63: `princeton = num_teams - 1`, the focal team's reserved
index. -/
def princetonIdx (cfg : Config) : ℕ := cfg.num_teams - 1

/-- Fresh trial state (source lines 83-92) with the draw counter at `r`
(trials share one global numpy stream, so the counter carries over). -/
def initStateR (cfg : Config) (r : ℕ) : TrialState :=
  { earnings := List.replicate cfg.num_teams 1
  , hist := List.replicate cfg.num_teams (List.replicate cfg.simulation_length_days 0)
  , teamInd1E := 0
  , teamInd2E := 0
  , teamInd1SR := 0
  , teamInd2SR := 0
  , rng := r }

/-- Fresh trial state at the start of the stream. -/
def initState (cfg : Config) : TrialState := initStateR cfg 0

/-- Source lines 119-135: resolve an opponent's volatility for one draw.
Returns the volatility together with the updated draw counter (the
`"random"` branch and the final `"mixed"` band consume one `randint` draw).
An unrecognized strategy raises, per draw, at this point. -/
def opponentVolStep (cfg : Config) (vol : List ℚ) (ri : ℕ → ℕ) (team r : ℕ) :
    Except String (ℚ × ℕ) :=
  if cfg.opponent_strategy = "random" then
    .ok (vol.getD (ri r % vol.length) 0, r + 1)
  else if cfg.opponent_strategy = "low" then
    .ok (cfg.minVol, r)
  else if cfg.opponent_strategy = "high" then
    .ok (cfg.maxVol, r)
  else if cfg.opponent_strategy = "mixed" then
    if (team : ℚ) ≤ (cfg.num_teams : ℚ) / 3 then
      .ok (npMeanQ vol, r)
    else if (team : ℚ) ≤ 2 * ((cfg.num_teams : ℚ) / 3) then
      .ok (cfg.maxVol, r)
    else
      .ok (vol.getD (ri r % vol.length) 0, r + 1)
  else if cfg.opponent_strategy = "avg" then
    .ok (npMeanQ vol, r)
  else
    .error ("Please choose a valid opponent strategy")

/-- Source lines 99-106: the focal team's wealth track.  It acts only when
the focal index differs from both wealth-leaderboard indices; when it acts
it consumes one normal draw at volatility `maxVol` and multiplies its wealth
by `1 + drift + return`. -/
def princetonWealthMove (cfg : Config) (g : ℕ → ℚ) (st : TrialState) : TrialState :=
  if princetonIdx cfg ≠ st.teamInd1E ∧ princetonIdx cfg ≠ st.teamInd2E then
    { st with
      earnings := st.earnings.set (princetonIdx cfg)
        (st.earnings.getD (princetonIdx cfg) 0 *
          (1 + cfg.drift + clip (cfg.maxVol * g st.rng)))
      rng := st.rng + 1 }
  else st

/-- Source lines 108-114: the focal team's Sharpe track.  Independently of
the wealth track, it records a fresh `maxVol` draw into the day's history
cell only when the focal index differs from both Sharpe-leaderboard
indices. -/
def princetonSharpeMove (cfg : Config) (g : ℕ → ℚ) (day : ℕ) (st : TrialState) : TrialState :=
  if princetonIdx cfg ≠ st.teamInd1SR ∧ princetonIdx cfg ≠ st.teamInd2SR then
    { st with
      hist := st.hist.set (princetonIdx cfg)
        ((st.hist.getD (princetonIdx cfg) []).set day (clip (cfg.maxVol * g st.rng)))
      rng := st.rng + 1 }
  else st

/-- Source lines 97-114: the focal team's move — the wealth gate runs first,
then the Sharpe gate (each consuming its own draw when it acts). -/
def princetonMove (cfg : Config) (g : ℕ → ℚ) (day : ℕ) (st : TrialState) : TrialState :=
  princetonSharpeMove cfg g day (princetonWealthMove cfg g st)

/-- Source lines 95-142: one team's move on one day.  The focal team follows
`princetonMove`; an opponent resolves its volatility (which may raise on an
invalid strategy), draws once, applies the return to wealth and records the
same return in the history matrix. -/
def teamStep (cfg : Config) (vol : List ℚ) (g : ℕ → ℚ) (ri : ℕ → ℕ)
    (day team : ℕ) (st : TrialState) : Except String TrialState :=
  if team = princetonIdx cfg then
    .ok (princetonMove cfg g day st)
  else
    match opponentVolStep cfg vol ri team st.rng with
    | .error e => .error e
    | .ok (tempVol, r1) =>
      let returns := clip (tempVol * g r1)
      .ok { st with
        earnings := st.earnings.set team (st.earnings.getD team 0 * (1 + cfg.drift + returns))
        hist := st.hist.set team ((st.hist.getD team []).set day returns)
        rng := r1 + 1 }

/-- Fold of `teamStep` over a given list of team indices. -/
def stepTeams (cfg : Config) (vol : List ℚ) (g : ℕ → ℚ) (ri : ℕ → ℕ)
    (day : ℕ) (ts : List ℕ) (st : TrialState) : Except String TrialState :=
  ts.foldlM (fun s t => teamStep cfg vol g ri day t s) st

/-- The inner team loop of source line 95: every team moves, in index
order. -/
def teamsPhase (cfg : Config) (vol : List ℚ) (g : ℕ → ℚ) (ri : ℕ → ℕ)
    (day : ℕ) (st : TrialState) : Except String TrialState :=
  stepTeams cfg vol g ri day (List.range cfg.num_teams) st

/-- Source lines 149-153: after all teams have moved, recompute the wealth
leaderboard over the full wealth array (raising on ties or fewer than two
teams, as `argpartition`/`.item()` would). -/
def wealthBoardPhase (st1 : TrialState) : Except String TrialState :=
  match argpartTop2 st1.earnings with
  | .error e => .error e
  | .ok (i1, i2) => .ok { st1 with teamInd1E := i1, teamInd2E := i2 }

/-- Source lines 158-165: only when `day > 1`, recompute the Sharpe
leaderboard from `teamReturns[:, :day]` — the history columns strictly
before the current day — using the `ddof = 1` Sharpe ratios. -/
noncomputable def sharpeBoardPhase (cfg : Config) (day : ℕ) (st2 : TrialState) :
    Except String TrialState :=
  if 1 < day then
    match argpartTop2 (sharpeVec cfg.annual_trading_days cfg.riskFreeReturn
        (st2.hist.map (fun row => row.take day))) with
    | .error e => .error e
    | .ok (j1, j2) => .ok { st2 with teamInd1SR := j1, teamInd2SR := j2 }
  else
    .ok st2

/-- Source lines 94-165: one full day — all teams move, then the wealth
leaderboard is recomputed, then (gated on `day > 1`) the Sharpe
leaderboard. -/
noncomputable def dayStep (cfg : Config) (vol : List ℚ) (g : ℕ → ℚ) (ri : ℕ → ℕ)
    (day : ℕ) (st : TrialState) : Except String TrialState :=
  match teamsPhase cfg vol g ri day st with
  | .error e => .error e
  | .ok st1 =>
    match wealthBoardPhase st1 with
    | .error e => .error e
    | .ok st2 => sharpeBoardPhase cfg day st2

/-- Source line 94: the day loop of one trial. -/
noncomputable def runTrial (cfg : Config) (vol : List ℚ) (g : ℕ → ℚ) (ri : ℕ → ℕ)
    (st0 : TrialState) : Except String TrialState :=
  (List.range cfg.simulation_length_days).foldlM
    (fun s d => dayStep cfg vol g ri d s) st0

/-- The position of index `p` in `np.argsort(scores)` (ascending sort of the
values, association with positions kept): the number of strictly smaller
entries.  `np.argsort`'s order among tied values is an artifact of its
unstable sorting routine; whenever the value at `p` occurs exactly once —
the only situation any settled claim relies on — this count is the position
under every correct sort. -/
def ascendingPos {α : Type} [LinearOrder α] [Inhabited α] (scores : List α) (p : ℕ) : ℕ :=
  (scores.filter (fun x => x < scores.getD p default)).length

/-- The per-trial scalar bundle recorded for the focal team
(source lines 167-183). -/
structure TrialResult where
  terminalWealth : ℚ
  rankE : ℕ
  terminalSharpe : ℝ
  rankSR : ℕ

/-- Source line 168: the focal team's terminal wealth, stored into the
result array first. -/
def terminalWealthGame (cfg : Config) (st : TrialState) : ℚ :=
  st.earnings.getD (princetonIdx cfg) 0

/-- Source lines 170-173: terminal rank by wealth,
`num_teams - position-in-argsort(earnings)`. -/
def rankByEarningsGame (cfg : Config) (st : TrialState) : ℕ :=
  cfg.num_teams - ascendingPos st.earnings (princetonIdx cfg)

/-- Source lines 176-179: the focal team's terminal Sharpe ratio (a nan in
numpy when the history has zero columns; this rational/real model gives 0
there — no settled claim depends on that value, only on the fact that the
store happens before line 182 runs). -/
noncomputable def terminalSharpeGame (cfg : Config) (st : TrialState) : ℝ :=
  (sharpeRatioFinal cfg.annual_trading_days cfg.riskFreeReturn st.hist).getD
    (princetonIdx cfg) 0

/-- Source lines 181-183: the recorded "rank by Sharpe", which the source
computes from `np.argsort(teamReturns_SharpeGame[:, day])` using the
LEFTOVER day-loop variable `day` — i.e. from the LAST DAY'S RAW RETURN
COLUMN (final loop value `simulation_length_days - 1`), not from the Sharpe
vector of line 177.  In a zero-day trial the day loop never ran, `day` is
unbound, and Python raises NameError at line 182 (the actual message quotes
the variable name); modelled by the error value. -/
def rankBySharpeGame (cfg : Config) (st : TrialState) : Except String ℕ :=
  if cfg.simulation_length_days = 0 then
    .error ("NameError: name day is not defined")
  else
    .ok (cfg.num_teams - ascendingPos
      (st.hist.map (fun row => row.getD (cfg.simulation_length_days - 1) 0))
      (princetonIdx cfg))

/-- Source lines 167-183, in program order: lines 168, 171-173 and 176-179
store the trial's wealth, earnings-rank and Sharpe results first; line 182
then computes the Sharpe-game rank — and raises NameError on a zero-day
trial, aborting the run AFTER those partial results were written to the
result arrays. -/
noncomputable def mkTrialResult (cfg : Config) (st : TrialState) :
    Except String TrialResult :=
  match rankBySharpeGame cfg st with
  | .error e => .error e
  | .ok r =>
    .ok { terminalWealth := terminalWealthGame cfg st
        , rankE := rankByEarningsGame cfg st
        , terminalSharpe := terminalSharpeGame cfg st
        , rankSR := r }

/-- The terminal rank by Sharpe as the claims and the spec describe it:
`teamCount` minus the focal team's position in the ascending sort of the
per-team terminal (full-history, annualized) Sharpe ratios.  Second
definition for the refinement comparison against `mkTrialResult`, written
from the spec's words. -/
noncomputable def rankBySharpeClaimed (cfg : Config) (st : TrialState) : ℕ :=
  cfg.num_teams -
    ascendingPos (sharpeRatioFinal cfg.annual_trading_days cfg.riskFreeReturn st.hist)
      (princetonIdx cfg)

/-- One iteration of the Monte Carlo loop: run a fresh trial picking up the
global draw stream at position `r`, and append the focal team's result. -/
noncomputable def monteCarloStep (cfg : Config) (vol : List ℚ) (g : ℕ → ℚ) (ri : ℕ → ℕ)
    (acc1 : List TrialResult) (r : ℕ) : Except String (List TrialResult × ℕ) :=
  match runTrial cfg vol g ri (initStateR cfg r) with
  | .error e => .error e
  | .ok stF =>
    match mkTrialResult cfg stF with
    | .error e => .error e
    | .ok res => .ok (acc1 ++ [res], stF.rng)

/-- Source lines 80-183: the Monte Carlo loop.  Each trial starts from a
fresh state but continues the global draw stream; the focal team's
per-trial results are collected in order. -/
noncomputable def monteCarlo (cfg : Config) (vol : List ℚ) (g : ℕ → ℚ) (ri : ℕ → ℕ) :
    Except String (List TrialResult × ℕ) :=
  (List.range cfg.trials).foldlM
    (fun acc _ => monteCarloStep cfg vol g ri acc.1 acc.2)
    ([], 0)

/-- `(arr == v).sum()`: the number of entries equal to `v`, as numpy sums
the boolean mask (source lines 188, 199). -/
def npEqSum (l : List ℚ) (v : ℚ) : ℕ :=
  (l.map (fun x => if x = v then (1 : ℕ) else 0)).sum

/-- Source line 188/199: finals frequency, `(ranks == 1).sum() + (ranks == 2).sum()`. -/
def freqFinals (ranks : List ℚ) : ℕ := npEqSum ranks 1 + npEqSum ranks 2

/-- Source line 191/202: finals probability, frequency over trial count. -/
def probFinals (ranks : List ℚ) (trials : ℕ) : ℚ :=
  (freqFinals ranks : ℚ) / (trials : ℚ)

/-- Source line 194/205: the edge statistic
`freq / ((2*trials - freq) / (num_teams - 1))`. -/
def edgeStat (ranks : List ℚ) (trials n : ℕ) : ℚ :=
  (freqFinals ranks : ℚ) / ((2 * (trials : ℚ) - (freqFinals ranks : ℚ)) / ((n : ℚ) - 1))

/-- Independent recomputation following the spec's words: "finals frequency
= the count of trials with terminal rank 1 plus the count of trials with
terminal rank 2". -/
def specFinalsFrequency (ranks : List ℚ) : ℕ := ranks.count 1 + ranks.count 2

/-- Independent recomputation following the spec's words: "finals
probability = finals frequency divided by the trial count". -/
def specFinalsProbability (ranks : List ℚ) (trials : ℕ) : ℚ :=
  (specFinalsFrequency ranks : ℚ) / (trials : ℚ)

/-- Independent recomputation following the spec's words:
"edge = finalsFrequency / ((2×trials − finalsFrequency) / (teamCount − 1))". -/
def specEdge (ranks : List ℚ) (trials n : ℕ) : ℚ :=
  (specFinalsFrequency ranks : ℚ) /
    ((2 * (trials : ℚ) - (specFinalsFrequency ranks : ℚ)) / ((n : ℚ) - 1))

/-! ### Helper lemmas about lists and the step functions -/


theorem getD_set {α : Type} (l : List α) (i j : ℕ) (a d : α) :
    (l.set i a).getD j d = if i = j ∧ i < l.length then a else l.getD j d := by
  rw [List.getD_eq_getElem?_getD, List.getD_eq_getElem?_getD, List.getElem?_set]
  by_cases hij : i = j
  · subst hij
    by_cases hlen : i < l.length
    · simp [hlen]
    · simp [hlen, List.getElem?_eq_none (show l.length ≤ i by omega)]
  · simp [hij]

theorem set_getD_self {α : Type} (l : List α) (n : ℕ) (d : α) :
    l.set n (l.getD n d) = l := by
  apply List.ext_getElem?
  intro j
  rw [List.getElem?_set]
  by_cases hij : n = j
  · subst hij
    by_cases hlen : n < l.length
    · simp [hlen, List.getD_eq_getElem?_getD, List.getElem?_eq_getElem hlen]
    · simp [hlen, List.getElem?_eq_none (show l.length ≤ n by omega)]
  · simp [hij]

theorem except_bind_ok {α β : Type} (a : α) (f : α → Except String β) :
    ((Except.ok a : Except String α) >>= f) = f a := rfl

theorem except_bind_error {α β : Type} (e : String) (f : α → Except String β) :
    ((Except.error e : Except String α) >>= f) = Except.error e := rfl

/-- The wealth-track gate: leaderboard indices and history untouched, wealth
updated exactly when the focal team is not 1st or 2nd by wealth. -/
theorem princetonWealthMove_spec (cfg : Config) (g : ℕ → ℚ) (st : TrialState) :
    (princetonWealthMove cfg g st).teamInd1E = st.teamInd1E ∧
    (princetonWealthMove cfg g st).teamInd2E = st.teamInd2E ∧
    (princetonWealthMove cfg g st).teamInd1SR = st.teamInd1SR ∧
    (princetonWealthMove cfg g st).teamInd2SR = st.teamInd2SR ∧
    (princetonWealthMove cfg g st).hist = st.hist ∧
    ((princetonIdx cfg = st.teamInd1E ∨ princetonIdx cfg = st.teamInd2E) →
      princetonWealthMove cfg g st = st) ∧
    ((princetonIdx cfg ≠ st.teamInd1E ∧ princetonIdx cfg ≠ st.teamInd2E) →
      (princetonWealthMove cfg g st).earnings =
        st.earnings.set (princetonIdx cfg)
          (st.earnings.getD (princetonIdx cfg) 0 *
            (1 + cfg.drift + clip (cfg.maxVol * g st.rng))) ∧
      (princetonWealthMove cfg g st).rng = st.rng + 1) := by
  unfold princetonWealthMove
  split_ifs with h
  · refine ⟨rfl, rfl, rfl, rfl, rfl, ?_, fun _ => ⟨rfl, rfl⟩⟩
    intro hor
    rcases hor with hor | hor
    · exact absurd hor h.1
    · exact absurd hor h.2
  · refine ⟨rfl, rfl, rfl, rfl, rfl, fun _ => rfl, fun hc => absurd hc h⟩

/-- The Sharpe-track gate: leaderboard indices and wealth untouched, the
day's history cell written exactly when the focal team is not 1st or 2nd by
Sharpe. -/
theorem princetonSharpeMove_spec (cfg : Config) (g : ℕ → ℚ) (day : ℕ) (st : TrialState) :
    (princetonSharpeMove cfg g day st).teamInd1E = st.teamInd1E ∧
    (princetonSharpeMove cfg g day st).teamInd2E = st.teamInd2E ∧
    (princetonSharpeMove cfg g day st).teamInd1SR = st.teamInd1SR ∧
    (princetonSharpeMove cfg g day st).teamInd2SR = st.teamInd2SR ∧
    (princetonSharpeMove cfg g day st).earnings = st.earnings ∧
    ((princetonIdx cfg = st.teamInd1SR ∨ princetonIdx cfg = st.teamInd2SR) →
      princetonSharpeMove cfg g day st = st) ∧
    ((princetonIdx cfg ≠ st.teamInd1SR ∧ princetonIdx cfg ≠ st.teamInd2SR) →
      (princetonSharpeMove cfg g day st).hist =
        st.hist.set (princetonIdx cfg)
          ((st.hist.getD (princetonIdx cfg) []).set day (clip (cfg.maxVol * g st.rng))) ∧
      (princetonSharpeMove cfg g day st).rng = st.rng + 1) := by
  unfold princetonSharpeMove
  split_ifs with h
  · refine ⟨rfl, rfl, rfl, rfl, rfl, ?_, fun _ => ⟨rfl, rfl⟩⟩
    intro hor
    rcases hor with hor | hor
    · exact absurd hor h.1
    · exact absurd hor h.2
  · refine ⟨rfl, rfl, rfl, rfl, rfl, fun _ => rfl, fun hc => absurd hc h⟩

/-- Inversion for `teamStep`: either the team is the focal team and the step
is `princetonMove`, or it is an opponent and the step resolves a volatility,
draws once and writes both wealth and history at its own index. -/
theorem teamStep_inv {cfg : Config} {vol : List ℚ} {g : ℕ → ℚ} {ri : ℕ → ℕ}
    {day team : ℕ} {st st' : TrialState}
    (h : teamStep cfg vol g ri day team st = .ok st') :
    (team = princetonIdx cfg ∧ st' = princetonMove cfg g day st) ∨
    (team ≠ princetonIdx cfg ∧ ∃ v r1,
      opponentVolStep cfg vol ri team st.rng = .ok (v, r1) ∧
      st' = { st with
        earnings := st.earnings.set team
          (st.earnings.getD team 0 * (1 + cfg.drift + clip (v * g r1)))
        hist := st.hist.set team ((st.hist.getD team []).set day (clip (v * g r1)))
        rng := r1 + 1 }) := by
  unfold teamStep at h
  split_ifs at h with hp
  · left
    exact ⟨hp, (Except.ok.injEq _ _).mp h.symm⟩
  · right
    refine ⟨hp, ?_⟩
    rcases ho : opponentVolStep cfg vol ri team st.rng with e | ⟨v, r1⟩
    · rw [ho] at h
      exact absurd h (by simp)
    · rw [ho] at h
      exact ⟨v, r1, rfl, ((Except.ok.injEq _ _).mp h).symm⟩

theorem getD_set_ne {α : Type} (l : List α) {i j : ℕ} (a d : α) (h : i ≠ j) :
    (l.set i a).getD j d = l.getD j d := by
  rw [getD_set]
  exact if_neg (fun hc => h hc.1)

/-- `princetonMove` never changes the four leaderboard indices. -/
theorem princetonMove_boards (cfg : Config) (g : ℕ → ℚ) (day : ℕ) (st : TrialState) :
    (princetonMove cfg g day st).teamInd1E = st.teamInd1E ∧
    (princetonMove cfg g day st).teamInd2E = st.teamInd2E ∧
    (princetonMove cfg g day st).teamInd1SR = st.teamInd1SR ∧
    (princetonMove cfg g day st).teamInd2SR = st.teamInd2SR := by
  have h1 := princetonWealthMove_spec cfg g st
  have h2 := princetonSharpeMove_spec cfg g day (princetonWealthMove cfg g st)
  exact ⟨h2.1.trans h1.1, h2.2.1.trans h1.2.1, h2.2.2.1.trans h1.2.2.1,
    h2.2.2.2.1.trans h1.2.2.2.1⟩

/-- `princetonMove` only writes the focal team's own row and wealth cell. -/
theorem princetonMove_getD_ne (cfg : Config) (g : ℕ → ℚ) (day : ℕ) (st : TrialState)
    {i : ℕ} (hi : i ≠ princetonIdx cfg) :
    (princetonMove cfg g day st).earnings.getD i 0 = st.earnings.getD i 0 ∧
    (princetonMove cfg g day st).hist.getD i [] = st.hist.getD i [] := by
  unfold princetonMove princetonSharpeMove princetonWealthMove
  split_ifs <;>
    exact ⟨by first | rfl | exact getD_set_ne _ _ _ (Ne.symm hi),
           by first | rfl | exact getD_set_ne _ _ _ (Ne.symm hi)⟩

/-- `teamStep` never changes the four leaderboard indices. -/
theorem teamStep_boards {cfg : Config} {vol : List ℚ} {g : ℕ → ℚ} {ri : ℕ → ℕ}
    {day team : ℕ} {st st' : TrialState}
    (h : teamStep cfg vol g ri day team st = .ok st') :
    st'.teamInd1E = st.teamInd1E ∧ st'.teamInd2E = st.teamInd2E ∧
    st'.teamInd1SR = st.teamInd1SR ∧ st'.teamInd2SR = st.teamInd2SR := by
  rcases teamStep_inv h with ⟨_, hst⟩ | ⟨_, v, r1, _, hst⟩
  · subst hst
    exact princetonMove_boards cfg g day st
  · subst hst
    exact ⟨rfl, rfl, rfl, rfl⟩

/-- `teamStep` for team `t` leaves every other team's wealth entry and
history row unchanged. -/
theorem teamStep_getD_ne {cfg : Config} {vol : List ℚ} {g : ℕ → ℚ} {ri : ℕ → ℕ}
    {day team : ℕ} {st st' : TrialState}
    (h : teamStep cfg vol g ri day team st = .ok st') {i : ℕ} (hi : i ≠ team) :
    st'.earnings.getD i 0 = st.earnings.getD i 0 ∧
    st'.hist.getD i [] = st.hist.getD i [] := by
  rcases teamStep_inv h with ⟨hp, hst⟩ | ⟨_, v, r1, _, hst⟩
  · subst hst
    exact princetonMove_getD_ne cfg g day st (hp ▸ hi)
  · subst hst
    exact ⟨getD_set_ne _ _ _ (Ne.symm hi), getD_set_ne _ _ _ (Ne.symm hi)⟩

theorem stepTeams_nil (cfg : Config) (vol : List ℚ) (g : ℕ → ℚ) (ri : ℕ → ℕ)
    (day : ℕ) (st : TrialState) : stepTeams cfg vol g ri day [] st = .ok st := rfl

theorem stepTeams_cons (cfg : Config) (vol : List ℚ) (g : ℕ → ℚ) (ri : ℕ → ℕ)
    (day t : ℕ) (ts : List ℕ) (st : TrialState) :
    stepTeams cfg vol g ri day (t :: ts) st =
      (teamStep cfg vol g ri day t st) >>= stepTeams cfg vol g ri day ts := by
  unfold stepTeams
  rw [List.foldlM_cons]

/-- A fold of team moves never changes the four leaderboard indices. -/
theorem stepTeams_boards {cfg : Config} {vol : List ℚ} {g : ℕ → ℚ} {ri : ℕ → ℕ}
    {day : ℕ} : ∀ {ts : List ℕ} {st st' : TrialState},
    stepTeams cfg vol g ri day ts st = .ok st' →
    st'.teamInd1E = st.teamInd1E ∧ st'.teamInd2E = st.teamInd2E ∧
    st'.teamInd1SR = st.teamInd1SR ∧ st'.teamInd2SR = st.teamInd2SR := by
  intro ts
  induction ts with
  | nil =>
    intro st st' h
    rw [stepTeams_nil] at h
    cases h
    exact ⟨rfl, rfl, rfl, rfl⟩
  | cons t ts ih =>
    intro st st' h
    rw [stepTeams_cons] at h
    rcases hm : teamStep cfg vol g ri day t st with e | sMid
    · rw [hm, except_bind_error] at h
      cases h
    · rw [hm, except_bind_ok] at h
      have h1 := teamStep_boards hm
      have h2 := ih h
      exact ⟨h2.1.trans h1.1, h2.2.1.trans h1.2.1, h2.2.2.1.trans h1.2.2.1,
        h2.2.2.2.trans h1.2.2.2⟩

/-- A fold of team moves over indices not containing `i` leaves team `i`'s
wealth entry and history row unchanged. -/
theorem stepTeams_getD_ne {cfg : Config} {vol : List ℚ} {g : ℕ → ℚ} {ri : ℕ → ℕ}
    {day : ℕ} {i : ℕ} : ∀ {ts : List ℕ} {st st' : TrialState},
    stepTeams cfg vol g ri day ts st = .ok st' → i ∉ ts →
    st'.earnings.getD i 0 = st.earnings.getD i 0 ∧
    st'.hist.getD i [] = st.hist.getD i [] := by
  intro ts
  induction ts with
  | nil =>
    intro st st' h _
    rw [stepTeams_nil] at h
    cases h
    exact ⟨rfl, rfl⟩
  | cons t ts ih =>
    intro st st' h hi
    rw [stepTeams_cons] at h
    rcases hm : teamStep cfg vol g ri day t st with e | sMid
    · rw [hm, except_bind_error] at h
      cases h
    · rw [hm, except_bind_ok] at h
      have h1 := teamStep_getD_ne hm
        (show i ≠ t from fun he => hi (by rw [he]; exact List.mem_cons_self t ts))
      have h2 := ih h (fun he => hi (List.mem_cons_of_mem t he))
      exact ⟨h2.1.trans h1.1, h2.2.trans h1.2⟩

/-- The clamp of source line 103/112/137 keeps every drawn return in
[-1, 1]. -/
theorem clip_mem (z : ℚ) : -1 ≤ clip z ∧ clip z ≤ 1 := by
  unfold clip
  exact ⟨le_max_left _ _, max_le (by norm_num) (min_le_right z 1)⟩

/-- With nonnegative drift, the per-day wealth multiplier `1 + drift + clip z`
is at least `drift`, hence nonnegative. -/
theorem mult_ge_drift {d : ℚ} (hd : 0 ≤ d) (z : ℚ) :
    d ≤ 1 + d + clip z ∧ 0 ≤ 1 + d + clip z := by
  have h := (clip_mem z).1
  constructor <;> linarith

theorem set_mult_nonneg {l : List ℚ} {m : ℚ} (t : ℕ) (hm : 0 ≤ m)
    (hl : ∀ i, 0 ≤ l.getD i 0) :
    ∀ i, 0 ≤ (l.set t (l.getD t 0 * m)).getD i 0 := by
  intro i
  rw [getD_set]
  split_ifs with hc
  · exact mul_nonneg (hl t) hm
  · exact hl i

/-- One team move keeps every wealth entry nonnegative (given nonnegative
drift). -/
theorem teamStep_nonneg {cfg : Config} {vol : List ℚ} {g : ℕ → ℚ} {ri : ℕ → ℕ}
    {day team : ℕ} {st st' : TrialState} (hd : 0 ≤ cfg.drift)
    (hw : ∀ i, 0 ≤ st.earnings.getD i 0)
    (h : teamStep cfg vol g ri day team st = .ok st') :
    ∀ i, 0 ≤ st'.earnings.getD i 0 := by
  rcases teamStep_inv h with ⟨_, hst⟩ | ⟨_, v, r1, _, hst⟩
  · subst hst
    have hearn := (princetonSharpeMove_spec cfg g day (princetonWealthMove cfg g st)).2.2.2.2.1
    show ∀ i, 0 ≤ (princetonSharpeMove cfg g day (princetonWealthMove cfg g st)).earnings.getD i 0
    rw [hearn]
    unfold princetonWealthMove
    split_ifs
    · exact set_mult_nonneg _ (mult_ge_drift hd _).2 hw
    · exact hw
  · subst hst
    exact set_mult_nonneg _ (mult_ge_drift hd _).2 hw

/-- A fold of team moves keeps every wealth entry nonnegative. -/
theorem stepTeams_nonneg {cfg : Config} {vol : List ℚ} {g : ℕ → ℚ} {ri : ℕ → ℕ}
    {day : ℕ} (hd : 0 ≤ cfg.drift) : ∀ {ts : List ℕ} {st st' : TrialState},
    (∀ i, 0 ≤ st.earnings.getD i 0) →
    stepTeams cfg vol g ri day ts st = .ok st' →
    ∀ i, 0 ≤ st'.earnings.getD i 0 := by
  intro ts
  induction ts with
  | nil =>
    intro st st' hw h
    rw [stepTeams_nil] at h
    cases h
    exact hw
  | cons t ts ih =>
    intro st st' hw h
    rw [stepTeams_cons] at h
    rcases hm : teamStep cfg vol g ri day t st with e | sMid
    · rw [hm, except_bind_error] at h
      cases h
    · rw [hm, except_bind_ok] at h
      exact ih (teamStep_nonneg hd hw hm) h

/-- Inversion for the wealth-leaderboard phase. -/
theorem wealthBoardPhase_inv {st1 st2 : TrialState}
    (h : wealthBoardPhase st1 = .ok st2) :
    ∃ i1 i2, argpartTop2 st1.earnings = .ok (i1, i2) ∧
      st2 = { st1 with teamInd1E := i1, teamInd2E := i2 } := by
  unfold wealthBoardPhase at h
  rcases ha : argpartTop2 st1.earnings with e | ⟨i1, i2⟩
  · rw [ha] at h
    cases h
  · rw [ha] at h
    cases h
    exact ⟨i1, i2, rfl, rfl⟩

/-- Inversion for the Sharpe-leaderboard phase: nothing happens on days 0
and 1; on later days the board indices come from the `ddof = 1` Sharpe
ratios of the history columns strictly before `day`. -/
theorem sharpeBoardPhase_inv {cfg : Config} {day : ℕ} {st2 st3 : TrialState}
    (h : sharpeBoardPhase cfg day st2 = .ok st3) :
    (day ≤ 1 ∧ st3 = st2) ∨
    (1 < day ∧ ∃ j1 j2,
      argpartTop2 (sharpeVec cfg.annual_trading_days cfg.riskFreeReturn
        (st2.hist.map (fun row => row.take day))) = .ok (j1, j2) ∧
      st3 = { st2 with teamInd1SR := j1, teamInd2SR := j2 }) := by
  unfold sharpeBoardPhase at h
  by_cases hday : 1 < day
  · rw [if_pos hday] at h
    rcases hs : argpartTop2 (sharpeVec cfg.annual_trading_days cfg.riskFreeReturn
        (st2.hist.map (fun row => row.take day))) with e | ⟨j1, j2⟩
    · rw [hs] at h
      cases h
    · rw [hs] at h
      cases h
      exact Or.inr ⟨hday, j1, j2, hs, rfl⟩
  · rw [if_neg hday] at h
    cases h
    exact Or.inl ⟨Nat.le_of_not_lt hday, rfl⟩

/-- Inversion for one full day: the team phase runs first, then the wealth
leaderboard is recomputed, then the gated Sharpe leaderboard. -/
theorem dayStep_inv {cfg : Config} {vol : List ℚ} {g : ℕ → ℚ} {ri : ℕ → ℕ}
    {day : ℕ} {st st3 : TrialState}
    (h : dayStep cfg vol g ri day st = .ok st3) :
    ∃ st1 st2, teamsPhase cfg vol g ri day st = .ok st1 ∧
      wealthBoardPhase st1 = .ok st2 ∧
      sharpeBoardPhase cfg day st2 = .ok st3 := by
  unfold dayStep at h
  rcases ht : teamsPhase cfg vol g ri day st with e | st1
  · rw [ht] at h
    cases h
  · rw [ht] at h
    have h2 : (match wealthBoardPhase st1 with
      | Except.error e => (Except.error e : Except String TrialState)
      | Except.ok st2 => sharpeBoardPhase cfg day st2) = Except.ok st3 := h
    rcases hw : wealthBoardPhase st1 with e | st2
    · rw [hw] at h2
      cases h2
    · rw [hw] at h2
      exact ⟨st1, st2, rfl, hw, h2⟩

theorem wealthBoardPhase_frame {st1 st2 : TrialState}
    (h : wealthBoardPhase st1 = .ok st2) :
    st2.earnings = st1.earnings ∧ st2.hist = st1.hist ∧
    st2.teamInd1SR = st1.teamInd1SR ∧ st2.teamInd2SR = st1.teamInd2SR := by
  obtain ⟨i1, i2, _, hst⟩ := wealthBoardPhase_inv h
  subst hst
  exact ⟨rfl, rfl, rfl, rfl⟩

theorem sharpeBoardPhase_frame {cfg : Config} {day : ℕ} {st2 st3 : TrialState}
    (h : sharpeBoardPhase cfg day st2 = .ok st3) :
    st3.earnings = st2.earnings ∧ st3.hist = st2.hist ∧
    st3.teamInd1E = st2.teamInd1E ∧ st3.teamInd2E = st2.teamInd2E := by
  rcases sharpeBoardPhase_inv h with ⟨_, hst⟩ | ⟨_, j1, j2, _, hst⟩ <;>
    (subst hst; exact ⟨rfl, rfl, rfl, rfl⟩)

theorem getD_replicate {α : Type} (n i : ℕ) (a d : α) :
    (List.replicate n a).getD i d = if i < n then a else d := by
  rw [List.getD_eq_getElem?_getD, List.getElem?_replicate]
  split_ifs <;> rfl

theorem teamStep_lengths {cfg : Config} {vol : List ℚ} {g : ℕ → ℚ} {ri : ℕ → ℕ}
    {day team : ℕ} {st st' : TrialState}
    (h : teamStep cfg vol g ri day team st = .ok st') :
    st'.earnings.length = st.earnings.length ∧ st'.hist.length = st.hist.length := by
  rcases teamStep_inv h with ⟨_, hst⟩ | ⟨_, v, r1, _, hst⟩
  · subst hst
    unfold princetonMove princetonSharpeMove princetonWealthMove
    split_ifs <;> simp [List.length_set]
  · subst hst
    simp [List.length_set]

theorem stepTeams_lengths {cfg : Config} {vol : List ℚ} {g : ℕ → ℚ} {ri : ℕ → ℕ}
    {day : ℕ} : ∀ {ts : List ℕ} {st st' : TrialState},
    stepTeams cfg vol g ri day ts st = .ok st' →
    st'.earnings.length = st.earnings.length ∧ st'.hist.length = st.hist.length := by
  intro ts
  induction ts with
  | nil =>
    intro st st' h
    rw [stepTeams_nil] at h
    cases h
    exact ⟨rfl, rfl⟩
  | cons t ts ih =>
    intro st st' h
    rw [stepTeams_cons] at h
    rcases hm : teamStep cfg vol g ri day t st with e | sMid
    · rw [hm, except_bind_error] at h
      cases h
    · rw [hm, except_bind_ok] at h
      have h1 := teamStep_lengths hm
      have h2 := ih h
      exact ⟨h2.1.trans h1.1, h2.2.trans h1.2⟩

/-- The team loop splits into the opponents (indices 0..n-2) followed by the
focal team's move, which is taken last and sees the leaderboard state from
the previous day boundary. -/
theorem teamsPhase_princeton {cfg : Config} {vol : List ℚ} {g : ℕ → ℚ} {ri : ℕ → ℕ}
    {day : ℕ} {st st' : TrialState} (hn : 1 ≤ cfg.num_teams)
    (h : teamsPhase cfg vol g ri day st = .ok st') :
    ∃ sMid, stepTeams cfg vol g ri day (List.range (cfg.num_teams - 1)) st = .ok sMid ∧
      sMid.teamInd1E = st.teamInd1E ∧ sMid.teamInd2E = st.teamInd2E ∧
      sMid.teamInd1SR = st.teamInd1SR ∧ sMid.teamInd2SR = st.teamInd2SR ∧
      sMid.earnings.getD (princetonIdx cfg) 0 = st.earnings.getD (princetonIdx cfg) 0 ∧
      sMid.hist.getD (princetonIdx cfg) [] = st.hist.getD (princetonIdx cfg) [] ∧
      st' = princetonMove cfg g day sMid := by
  have hsplit : teamsPhase cfg vol g ri day st =
      (stepTeams cfg vol g ri day (List.range (cfg.num_teams - 1)) st) >>=
        teamStep cfg vol g ri day (cfg.num_teams - 1) := by
    unfold teamsPhase
    conv_lhs =>
      rw [show cfg.num_teams = (cfg.num_teams - 1) + 1 from (Nat.succ_pred_eq_of_pos hn).symm]
    unfold stepTeams
    rw [List.range_succ, List.foldlM_append]
    simp only [List.foldlM_cons, List.foldlM_nil, bind_pure]
  rw [hsplit] at h
  rcases hm : stepTeams cfg vol g ri day (List.range (cfg.num_teams - 1)) st with e | sMid
  · rw [hm, except_bind_error] at h
    cases h
  · rw [hm, except_bind_ok] at h
    have hb := stepTeams_boards hm
    have hg := stepTeams_getD_ne hm
      (show princetonIdx cfg ∉ List.range (cfg.num_teams - 1) from
        fun hmem => absurd (List.mem_range.mp hmem) (Nat.lt_irrefl _))
    have hpm : st' = princetonMove cfg g day sMid := by
      unfold teamStep at h
      rw [if_pos (show cfg.num_teams - 1 = princetonIdx cfg from rfl)] at h
      cases h
      rfl
    exact ⟨sMid, rfl, hb.1, hb.2.1, hb.2.2.1, hb.2.2.2, hg.1, hg.2, hpm⟩

theorem getD_set_mul (l : List ℚ) (n : ℕ) (m : ℚ) :
    (l.set n (l.getD n 0 * m)).getD n 0 = l.getD n 0 * m := by
  rw [getD_set]
  split_ifs with hc
  · rfl
  · have hlen : l.length ≤ n := by
      rcases Nat.lt_or_ge n l.length with hlt | hge
      · exact absurd ⟨rfl, hlt⟩ hc
      · exact hge
    rw [List.getD_eq_default _ _ hlen]
    rw [zero_mul]

/-! ### Concrete inputs used by witnesses -/

/-- The all-zero normal-draw stream. -/
def gZero : ℕ → ℚ := fun _ => 0

/-- A normal-draw stream taking the value of its index. -/
def gNat : ℕ → ℚ := fun k => (k : ℚ)

/-- The all-zero randint stream. -/
def riZero : ℕ → ℕ := fun _ => 0

/-- A tiny valid configuration: two teams, `"low"` opponents, zero drift. -/
def cfgTwoLow : Config :=
  { annual_trading_days := 4
  , maxVol := 1/2
  , minVol := 1/2
  , riskFreeReturn := 0
  , drift := 0
  , opponent_strategy := "low"
  , num_portfolio_return_distributions := 1
  , num_teams := 2
  , simulation_length_days := 1
  , trials := 1 }

/-- A state in which the focal team (index 1) holds 1st place by wealth. -/
def stBlocked : TrialState := { initState cfgTwoLow with teamInd1E := 1 }

/-! ### Claim theorems: C6, C8, C10 -/

/-- Claim C6: on any day on which the focal team is 1st or 2nd by wealth
according to the leaderboard state from the previous day boundary, its
wealth entry is left completely unchanged for that day; when it is 3rd or
lower by wealth, its wealth entry is multiplied by `1 + drift + clip(draw)`
(it resumes being updated). -/
theorem focal_wealth_gate (cfg : Config) (vol : List ℚ) (g : ℕ → ℚ) (ri : ℕ → ℕ)
    (day : ℕ) (st st' : TrialState) (hn : 2 ≤ cfg.num_teams)
    (h : teamsPhase cfg vol g ri day st = .ok st') :
    ((princetonIdx cfg = st.teamInd1E ∨ princetonIdx cfg = st.teamInd2E) →
      st'.earnings.getD (princetonIdx cfg) 0 = st.earnings.getD (princetonIdx cfg) 0) ∧
    ((princetonIdx cfg ≠ st.teamInd1E ∧ princetonIdx cfg ≠ st.teamInd2E) →
      ∃ k, st'.earnings.getD (princetonIdx cfg) 0 =
        st.earnings.getD (princetonIdx cfg) 0 *
          (1 + cfg.drift + clip (cfg.maxVol * g k))) := by
  obtain ⟨sMid, hm, hb1, hb2, _, _, hge, _, hpm⟩ :=
    teamsPhase_princeton (show 1 ≤ cfg.num_teams by omega) h
  subst hpm
  have hse : (princetonMove cfg g day sMid).earnings =
      (princetonWealthMove cfg g sMid).earnings :=
    (princetonSharpeMove_spec cfg g day (princetonWealthMove cfg g sMid)).2.2.2.2.1
  constructor
  · intro hor
    have hor' : princetonIdx cfg = sMid.teamInd1E ∨ princetonIdx cfg = sMid.teamInd2E := by
      rcases hor with hor | hor
      · exact Or.inl (hor.trans hb1.symm)
      · exact Or.inr (hor.trans hb2.symm)
    have hblocked := (princetonWealthMove_spec cfg g sMid).2.2.2.2.2.1 hor'
    rw [hse, hblocked]
    exact hge
  · intro hne
    have hne' : princetonIdx cfg ≠ sMid.teamInd1E ∧ princetonIdx cfg ≠ sMid.teamInd2E := by
      constructor
      · rw [hb1]
        exact hne.1
      · rw [hb2]
        exact hne.2
    have hopen := ((princetonWealthMove_spec cfg g sMid).2.2.2.2.2.2 hne').1
    refine ⟨sMid.rng, ?_⟩
    rw [hse, hopen, getD_set_mul, hge]

/-- Claim C6 witness: a concrete blocked day — the focal team is 1st by
wealth, and its wealth entry survives the day unchanged (at its initial
value 1). -/
theorem focal_wealth_gate_witness :
    (teamsPhase cfgTwoLow [1/2] gZero riZero 0 stBlocked).map
      (fun s => s.earnings.getD (princetonIdx cfgTwoLow) 0) = .ok 1 := by
  have hOk : (teamsPhase cfgTwoLow [1/2] gZero riZero 0 stBlocked).isOk = true := by decide
  rcases h : teamsPhase cfgTwoLow [1/2] gZero riZero 0 stBlocked with e | st'
  · rw [h] at hOk
    exact Bool.noConfusion hOk
  · have hres := (focal_wealth_gate cfgTwoLow [1/2] gZero riZero 0 stBlocked st'
      (by decide) h).1 (by decide)
    simp only [Except.map]
    rw [hres]
    exact congrArg Except.ok (by with_unfolding_all decide)

/-- Claim C8: given nonnegative drift, one full day keeps every wealth
entry nonnegative; moreover every drawn return is clamped to [-1, 1] before
use, so each applied per-day multiplier `1 + drift + clip z` is at least
`drift`. -/
theorem wealth_nonneg_invariant (cfg : Config) (vol : List ℚ) (g : ℕ → ℚ) (ri : ℕ → ℕ)
    (day : ℕ) (st st3 : TrialState) (hd : 0 ≤ cfg.drift)
    (hw : ∀ i, 0 ≤ st.earnings.getD i 0)
    (h : dayStep cfg vol g ri day st = .ok st3) :
    (∀ i, 0 ≤ st3.earnings.getD i 0) ∧
    (∀ z : ℚ, -1 ≤ clip z ∧ clip z ≤ 1 ∧ cfg.drift ≤ 1 + cfg.drift + clip z) := by
  obtain ⟨st1, st2, ht, hwb, hsb⟩ := dayStep_inv h
  have h1 := stepTeams_nonneg hd hw ht
  have e2 := (wealthBoardPhase_frame hwb).1
  have e3 := (sharpeBoardPhase_frame hsb).1
  refine ⟨fun i => ?_, fun z => ⟨(clip_mem z).1, (clip_mem z).2, (mult_ge_drift hd z).1⟩⟩
  rw [e3, e2]
  exact h1 i

/-- Claim C8 witness: a concrete day-0 step from the all-ones wealth state
keeps both wealth entries nonnegative. -/
theorem wealth_nonneg_invariant_witness :
    (dayStep cfgTwoLow [1/2] gNat riZero 0 (initState cfgTwoLow)).map
      (fun s => decide (0 ≤ s.earnings.getD 0 0) && decide (0 ≤ s.earnings.getD 1 0)) =
      .ok true := by
  have hOk : (dayStep cfgTwoLow [1/2] gNat riZero 0 (initState cfgTwoLow)).isOk = true := by
    with_unfolding_all decide
  rcases h : dayStep cfgTwoLow [1/2] gNat riZero 0 (initState cfgTwoLow) with e | st3
  · rw [h] at hOk
    exact Bool.noConfusion hOk
  · have hres := (wealth_nonneg_invariant cfgTwoLow [1/2] gNat riZero 0
      (initState cfgTwoLow) st3 (by decide)
      (fun i => by
        rw [show (initState cfgTwoLow).earnings = List.replicate 2 1 from rfl,
          getD_replicate]
        split_ifs <;> norm_num) h).1
    simp only [Except.map]
    rw [decide_eq_true (hres 0), decide_eq_true (hres 1)]
    rfl

/-- Claim C10: on day 0 of every trial with at least two teams and at least
one day, the initial leaderboard entries are all the sentinel team index 0,
the focal team's reserved index is at least 1, and hence both focal gates
pass: the focal team applies a wealth return (its wealth becomes
`1 * (1 + drift + clip(draw))`) and records a fresh return into its day-0
history cell. -/
theorem day0_focal_active (cfg : Config) (vol : List ℚ) (g : ℕ → ℚ) (ri : ℕ → ℕ)
    (st' : TrialState) (hn : 2 ≤ cfg.num_teams) (hL : 1 ≤ cfg.simulation_length_days)
    (h : teamsPhase cfg vol g ri 0 (initState cfg) = .ok st') :
    (initState cfg).teamInd1E = 0 ∧ (initState cfg).teamInd2E = 0 ∧
    (initState cfg).teamInd1SR = 0 ∧ (initState cfg).teamInd2SR = 0 ∧
    1 ≤ princetonIdx cfg ∧
    ∃ k, st'.earnings.getD (princetonIdx cfg) 0 =
        1 * (1 + cfg.drift + clip (cfg.maxVol * g k)) ∧
      (st'.hist.getD (princetonIdx cfg) []).getD 0 0 =
        clip (cfg.maxVol * g (k + 1)) := by
  have hp1 : 1 ≤ princetonIdx cfg := by
    unfold princetonIdx
    omega
  have hp0 : princetonIdx cfg ≠ 0 := by omega
  obtain ⟨sMid, hm, hb1, hb2, hb3, hb4, hge, hgh, hpm⟩ :=
    teamsPhase_princeton (show 1 ≤ cfg.num_teams by omega) h
  subst hpm
  have hWcond : princetonIdx cfg ≠ sMid.teamInd1E ∧ princetonIdx cfg ≠ sMid.teamInd2E := by
    rw [hb1, hb2]
    exact ⟨hp0, hp0⟩
  have hWspec := princetonWealthMove_spec cfg g sMid
  have hWopen := hWspec.2.2.2.2.2.2 hWcond
  have hScond : princetonIdx cfg ≠ (princetonWealthMove cfg g sMid).teamInd1SR ∧
      princetonIdx cfg ≠ (princetonWealthMove cfg g sMid).teamInd2SR := by
    rw [hWspec.2.2.1, hWspec.2.2.2.1, hb3, hb4]
    exact ⟨hp0, hp0⟩
  have hSspec := princetonSharpeMove_spec cfg g 0 (princetonWealthMove cfg g sMid)
  have hSopen := hSspec.2.2.2.2.2.2 hScond
  refine ⟨rfl, rfl, rfl, rfl, hp1, sMid.rng, ?_, ?_⟩
  · -- wealth: the Sharpe gate leaves earnings alone, the wealth gate applied
    -- the multiplier to the initial entry 1
    have hinit1 : sMid.earnings.getD (princetonIdx cfg) 0 = 1 := by
      rw [hge, show (initState cfg).earnings = List.replicate cfg.num_teams 1 from rfl,
        getD_replicate, if_pos (show princetonIdx cfg < cfg.num_teams by
          unfold princetonIdx at *
          omega)]
    show (princetonSharpeMove cfg g 0 (princetonWealthMove cfg g sMid)).earnings.getD
        (princetonIdx cfg) 0 = _
    rw [hSspec.2.2.2.2.1, hWopen.1, getD_set_mul, hinit1]
  · -- history: the day-0 cell of the focal row holds the second draw
    have hlen : sMid.hist.length = cfg.num_teams := by
      have := (stepTeams_lengths hm).2
      rw [this]
      exact List.length_replicate _ _
    have hrow : sMid.hist.getD (princetonIdx cfg) [] =
        List.replicate cfg.simulation_length_days 0 := by
      rw [hgh, show (initState cfg).hist =
        List.replicate cfg.num_teams (List.replicate cfg.simulation_length_days 0) from rfl,
        getD_replicate, if_pos (show princetonIdx cfg < cfg.num_teams by
          unfold princetonIdx at *
          omega)]
    show ((princetonSharpeMove cfg g 0 (princetonWealthMove cfg g sMid)).hist.getD
        (princetonIdx cfg) []).getD 0 0 = _
    rw [hSopen.1, hWspec.2.2.2.2.1]
    rw [getD_set, if_pos (by
      constructor
      · rfl
      · rw [hlen]
        unfold princetonIdx at *
        omega)]
    rw [hrow, getD_set, if_pos (by
      constructor
      · rfl
      · rw [List.length_replicate]
        omega)]
    rw [hWopen.2]

/-- Claim C10 witness: a concrete two-team day 0 — the focal team both
applies a wealth return and records a history return. -/
theorem day0_focal_active_witness :
    ∃ st', teamsPhase cfgTwoLow [1/2] gNat riZero 0 (initState cfgTwoLow) = .ok st' ∧
      ∃ k, st'.earnings.getD (princetonIdx cfgTwoLow) 0 =
          1 * (1 + cfgTwoLow.drift + clip (cfgTwoLow.maxVol * gNat k)) ∧
        (st'.hist.getD (princetonIdx cfgTwoLow) []).getD 0 0 =
          clip (cfgTwoLow.maxVol * gNat (k + 1)) := by
  have hOk : (teamsPhase cfgTwoLow [1/2] gNat riZero 0 (initState cfgTwoLow)).isOk = true := by
    decide
  rcases h : teamsPhase cfgTwoLow [1/2] gNat riZero 0 (initState cfgTwoLow) with e | st'
  · rw [h] at hOk
    exact Bool.noConfusion hOk
  · exact ⟨st', rfl,
      (day0_focal_active cfgTwoLow [1/2] gNat riZero st' (by decide) (by decide) h).2.2.2.2.2⟩

/-- Claim C7: the Sharpe leaderboard is recomputed only at the end of a day
with index strictly greater than 1; its evaluation window is
`teamReturns[:, :day]`, the history columns strictly before the current day
— so every Sharpe evaluation (and hence the `ddof = 1` sample standard
deviation) sees at least 2 day-columns; moreover the current day's column
cannot influence the evaluation. -/
theorem sharpe_board_gating (cfg : Config) (vol : List ℚ) (g : ℕ → ℚ) (ri : ℕ → ℕ)
    (day : ℕ) (st st1 st3 : TrialState)
    (h1 : teamsPhase cfg vol g ri day st = .ok st1)
    (h : dayStep cfg vol g ri day st = .ok st3) :
    (day ≤ 1 → st3.teamInd1SR = st.teamInd1SR ∧ st3.teamInd2SR = st.teamInd2SR) ∧
    (1 < day → 2 ≤ day ∧ ∃ j1 j2,
      argpartTop2 (sharpeVec cfg.annual_trading_days cfg.riskFreeReturn
        (st1.hist.map (fun row => row.take day))) = .ok (j1, j2) ∧
      st3.teamInd1SR = j1 ∧ st3.teamInd2SR = j2) ∧
    (∀ (hist : List (List ℚ)) (t : ℕ) (v : ℚ),
      sharpeVec cfg.annual_trading_days cfg.riskFreeReturn
        ((hist.set t ((hist.getD t []).set day v)).map (fun row => row.take day)) =
      sharpeVec cfg.annual_trading_days cfg.riskFreeReturn
        (hist.map (fun row => row.take day))) := by
  obtain ⟨st1', st2, ht, hwb, hsb⟩ := dayStep_inv h
  have hst1 : st1' = st1 := Except.ok.inj (ht.symm.trans h1)
  subst hst1
  have hwf := wealthBoardPhase_frame hwb
  have htb := stepTeams_boards ht
  refine ⟨?_, ?_, ?_⟩
  · intro hle
    rcases sharpeBoardPhase_inv hsb with ⟨_, hst3⟩ | ⟨hgt, _⟩
    · subst hst3
      exact ⟨(hwf.2.2.1).trans htb.2.2.1, (hwf.2.2.2).trans htb.2.2.2⟩
    · omega
  · intro hgt
    rcases sharpeBoardPhase_inv hsb with ⟨hle, _⟩ | ⟨_, j1, j2, hargs, hst3⟩
    · omega
    · rw [hwf.2.1] at hargs
      subst hst3
      exact ⟨by omega, j1, j2, hargs, rfl, rfl⟩
  · intro hist t v
    rw [List.map_set]
    have hf : ((hist.getD t []).set day v).take day = (hist.getD t []).take day := by
      rw [List.set_take]
      exact List.set_eq_of_length_le (by
        rw [List.length_take]
        exact Nat.min_le_left _ _)
    rw [hf]
    have hgd : (hist.map (fun row => row.take day)).getD t (List.take day []) =
        (hist.getD t []).take day := List.getD_map hist [] (fun row => row.take day)
    rw [List.take_nil] at hgd
    rw [← hgd, set_getD_self]

/-- Claim C7 witness: on a concrete day with index 1 the Sharpe leaderboard
is left at its previous (sentinel) value. -/
theorem sharpe_board_gating_witness :
    (dayStep cfgTwoLow [1/2] gNat riZero 1 (initState cfgTwoLow)).map
      (fun s => (s.teamInd1SR, s.teamInd2SR)) = .ok (0, 0) := by
  have hOkT : (teamsPhase cfgTwoLow [1/2] gNat riZero 1 (initState cfgTwoLow)).isOk = true := by
    decide
  have hOk : (dayStep cfgTwoLow [1/2] gNat riZero 1 (initState cfgTwoLow)).isOk = true := by
    with_unfolding_all decide
  rcases ht : teamsPhase cfgTwoLow [1/2] gNat riZero 1 (initState cfgTwoLow) with e | st1
  · rw [ht] at hOkT
    exact Bool.noConfusion hOkT
  · rcases h : dayStep cfgTwoLow [1/2] gNat riZero 1 (initState cfgTwoLow) with e | st3
    · rw [h] at hOk
      exact Bool.noConfusion hOk
    · have hres := (sharpe_board_gating cfgTwoLow [1/2] gNat riZero 1
        (initState cfgTwoLow) st1 st3 ht h).1 (by decide)
      simp only [Except.map]
      rw [hres.1, hres.2]
      rfl

/-- An unrecognized strategy identifier makes the opponent dispatch raise. -/
theorem opponentVolStep_invalid {cfg : Config} (vol : List ℚ) (ri : ℕ → ℕ) (team r : ℕ)
    (h5 : cfg.opponent_strategy ≠ "random" ∧ cfg.opponent_strategy ≠ "low" ∧
      cfg.opponent_strategy ≠ "high" ∧ cfg.opponent_strategy ≠ "mixed" ∧
      cfg.opponent_strategy ≠ "avg") :
    opponentVolStep cfg vol ri team r = .error ("Please choose a valid opponent strategy") := by
  unfold opponentVolStep
  rw [if_neg h5.1, if_neg h5.2.1, if_neg h5.2.2.1, if_neg h5.2.2.2.1, if_neg h5.2.2.2.2]

/-- Claim C3 (amended): the strategy identifier is validated per opponent
draw inside the loops, not at configuration resolution.  With an
unrecognized identifier and at least two teams: team 0's very first move
raises (for any state), so with at least one day and one trial the whole run
aborts with the invalid-strategy error and no trial completes.  With zero
simulation days, however, the dispatch is never reached and the run never
raises the invalid-strategy error at all: trial 0's day loop completes
trivially, the end-of-trial bookkeeping stores the partial results of lines
168-179, and line 182 then raises NameError (the leftover loop variable
`day` was never bound) — a different error, after partial results were
written. -/
theorem invalid_strategy_per_draw (cfg : Config) (vol : List ℚ) (g : ℕ → ℚ) (ri : ℕ → ℕ)
    (h5 : cfg.opponent_strategy ≠ "random" ∧ cfg.opponent_strategy ≠ "low" ∧
      cfg.opponent_strategy ≠ "high" ∧ cfg.opponent_strategy ≠ "mixed" ∧
      cfg.opponent_strategy ≠ "avg")
    (hn : 2 ≤ cfg.num_teams) :
    (∀ st day, teamStep cfg vol g ri day 0 st =
      .error ("Please choose a valid opponent strategy")) ∧
    (1 ≤ cfg.simulation_length_days →
      runTrial cfg vol g ri (initState cfg) =
        .error ("Please choose a valid opponent strategy") ∧
      (1 ≤ cfg.trials → monteCarlo cfg vol g ri =
        .error ("Please choose a valid opponent strategy"))) ∧
    (cfg.simulation_length_days = 0 →
      runTrial cfg vol g ri (initState cfg) = .ok (initState cfg) ∧
      (∀ st, mkTrialResult cfg st = .error ("NameError: name day is not defined")) ∧
      (1 ≤ cfg.trials → monteCarlo cfg vol g ri =
        .error ("NameError: name day is not defined"))) := by
  have hp0 : (0 : ℕ) ≠ princetonIdx cfg := by
    unfold princetonIdx
    omega
  have hteam0 : ∀ (st : TrialState) (day : ℕ), teamStep cfg vol g ri day 0 st =
      .error ("Please choose a valid opponent strategy") := by
    intro st day
    unfold teamStep
    rw [if_neg hp0, opponentVolStep_invalid vol ri 0 st.rng h5]
  have hteams : ∀ (st : TrialState) (day : ℕ), teamsPhase cfg vol g ri day st =
      .error ("Please choose a valid opponent strategy") := by
    intro st day
    unfold teamsPhase
    rw [show cfg.num_teams = (cfg.num_teams - 1) + 1 from by omega,
      List.range_succ_eq_map]
    rw [stepTeams_cons, hteam0, except_bind_error]
  have hday : ∀ (st : TrialState) (day : ℕ), dayStep cfg vol g ri day st =
      .error ("Please choose a valid opponent strategy") := by
    intro st day
    unfold dayStep
    rw [hteams]
  refine ⟨hteam0, ?_, ?_⟩
  · intro hL
    have hrtE : ∀ r : ℕ, runTrial cfg vol g ri (initStateR cfg r) =
        .error ("Please choose a valid opponent strategy") := by
      intro r
      unfold runTrial
      rw [show cfg.simulation_length_days = (cfg.simulation_length_days - 1) + 1 from by omega,
        List.range_succ_eq_map, List.foldlM_cons, hday, except_bind_error]
    refine ⟨hrtE 0, fun hT => ?_⟩
    have hstepE : ∀ (acc1 : List TrialResult) (r : ℕ),
        monteCarloStep cfg vol g ri acc1 r =
          .error ("Please choose a valid opponent strategy") := by
      intro acc1 r
      unfold monteCarloStep
      rw [hrtE r]
    unfold monteCarlo
    rw [show cfg.trials = (cfg.trials - 1) + 1 from by omega, List.range_succ_eq_map]
    rw [List.foldlM_cons]
    show (monteCarloStep cfg vol g ri [] 0) >>= _ = _
    rw [hstepE, except_bind_error]
  · intro hL0
    have hrt : ∀ r : ℕ, runTrial cfg vol g ri (initStateR cfg r) = .ok (initStateR cfg r) := by
      intro r
      unfold runTrial
      rw [hL0, List.range_zero]
      rfl
    have hmkE : ∀ st : TrialState, mkTrialResult cfg st =
        .error ("NameError: name day is not defined") := by
      intro st
      unfold mkTrialResult rankBySharpeGame
      rw [if_pos hL0]
    have hstepN : ∀ (acc1 : List TrialResult) (r : ℕ),
        monteCarloStep cfg vol g ri acc1 r =
          .error ("NameError: name day is not defined") := by
      intro acc1 r
      unfold monteCarloStep
      rw [hrt r]
      show (match mkTrialResult cfg (initStateR cfg r) with
        | Except.error e => (Except.error e : Except String (List TrialResult × ℕ))
        | Except.ok res => Except.ok (acc1 ++ [res], (initStateR cfg r).rng)) = _
      rw [hmkE]
    refine ⟨hrt 0, hmkE, fun hT => ?_⟩
    unfold monteCarlo
    rw [show cfg.trials = (cfg.trials - 1) + 1 from by omega, List.range_succ_eq_map]
    rw [List.foldlM_cons]
    show (monteCarloStep cfg vol g ri [] 0) >>= _ = _
    rw [hstepN, except_bind_error]

/-- A two-team one-day configuration with an unrecognized strategy. -/
def cfgFooOneDay : Config := { cfgTwoLow with opponent_strategy := "foo" }

/-- A two-team ZERO-day configuration with an unrecognized strategy. -/
def cfgFooZeroDays : Config :=
  { cfgTwoLow with opponent_strategy := "foo", simulation_length_days := 0 }

/-- Claim C3 counterexample: with an unrecognized strategy but zero
simulation days, the run does NOT fail with the invalid-strategy error —
the strategy dispatch is never reached (the day loop is empty and runTrial
succeeds), and the run instead aborts during trial 0's end-of-trial
bookkeeping with the NameError of line 182, after the partial results of
lines 168-179 were written.  So the validation is per-draw, not at
configuration resolution, and an aborted run can leave partial results. -/
theorem invalid_strategy_counterexample :
    (cfgFooZeroDays.opponent_strategy ≠ "random" ∧
      cfgFooZeroDays.opponent_strategy ≠ "low" ∧
      cfgFooZeroDays.opponent_strategy ≠ "high" ∧
      cfgFooZeroDays.opponent_strategy ≠ "mixed" ∧
      cfgFooZeroDays.opponent_strategy ≠ "avg") ∧
    runTrial cfgFooZeroDays [] gZero riZero (initState cfgFooZeroDays) =
      .ok (initState cfgFooZeroDays) ∧
    monteCarlo cfgFooZeroDays [] gZero riZero =
      .error ("NameError: name day is not defined") ∧
    ¬ monteCarlo cfgFooZeroDays [] gZero riZero =
      .error ("Please choose a valid opponent strategy") := by
  have h1 : runTrial cfgFooZeroDays [] gZero riZero (initState cfgFooZeroDays) =
      .ok (initState cfgFooZeroDays) := rfl
  have h2 : monteCarlo cfgFooZeroDays [] gZero riZero =
      .error ("NameError: name day is not defined") := rfl
  refine ⟨by decide, h1, h2, ?_⟩
  intro hc
  rw [h2] at hc
  exact absurd (Except.error.inj hc) (by decide)

/-- Claim C3 witness: with one day and one trial the run aborts with the
invalid-strategy error at the first opponent draw. -/
theorem invalid_strategy_per_draw_witness :
    runTrial cfgFooOneDay [] gZero riZero (initState cfgFooOneDay) =
      .error ("Please choose a valid opponent strategy") ∧
    monteCarlo cfgFooOneDay [] gZero riZero =
      .error ("Please choose a valid opponent strategy") := by
  have hres := (invalid_strategy_per_draw cfgFooOneDay [] gZero riZero
    (by decide) (by decide)).2.1 (by decide)
  exact ⟨hres.1, hres.2 (by decide)⟩

instance {ε α : Type} [DecidableEq ε] [DecidableEq α] : DecidableEq (Except ε α) := fun a b =>
  match a, b with
  | .error x, .error y =>
    if h : x = y then isTrue (by rw [h]) else isFalse (fun hc => h (Except.error.inj hc))
  | .ok x, .ok y =>
    if h : x = y then isTrue (by rw [h]) else isFalse (fun hc => h (Except.ok.inj hc))
  | .error _, .ok _ => isFalse (fun hc => Except.noConfusion hc)
  | .ok _, .error _ => isFalse (fun hc => Except.noConfusion hc)

/-- A six-team `"mixed"` configuration with the three-entry menu
`npLinspace 1 3 3 = [1, 2, 3]` (mean 2, maxVol 3). -/
def cfgMixed6 : Config :=
  { annual_trading_days := 4
  , maxVol := 3
  , minVol := 1
  , riskFreeReturn := 0
  , drift := 0
  , opponent_strategy := "mixed"
  , num_portfolio_return_distributions := 3
  , num_teams := 6
  , simulation_length_days := 1
  , trials := 1 }

/-- Claim C2 counterexample: under `"mixed"` with `teamCount = 6`, the
opponent at index 2 resolves to the MENU MEAN (2), not `maxVol` (3) as the
claim asserts for indices 2 and 3; and the opponent at index 4 resolves
deterministically to `maxVol`, not to a random menu pick as the claim
asserts for indices 4 and 5.  (Index 5 is the focal team and never reaches
this dispatch.) -/
theorem mixed_strategy_counterexample :
    opponentVolStep cfgMixed6 (npLinspace 1 3 3) riZero 2 0 =
      .ok (npMeanQ (npLinspace 1 3 3), 0) ∧
    npMeanQ (npLinspace 1 3 3) = 2 ∧
    cfgMixed6.maxVol = 3 ∧
    (2 : ℚ) ≠ 3 ∧
    opponentVolStep cfgMixed6 (npLinspace 1 3 3) riZero 4 0 = .ok (cfgMixed6.maxVol, 0) := by
  refine ⟨?_, ?_, rfl, by norm_num, ?_⟩
  · with_unfolding_all decide
  · with_unfolding_all decide
  · with_unfolding_all decide

/-- Claim C2 (amended): under the `"mixed"` strategy the bands are the
inclusive rational-division cutoffs of the source — an opponent with index
`team` uses the menu mean when `team ≤ num_teams/3` (as rationals, i.e.
`3*team ≤ num_teams`), `maxVol` when additionally `team ≤ 2*(num_teams/3)`
(i.e. `3*team ≤ 2*num_teams`), and a fresh random menu pick otherwise.
With `teamCount = 6` the opponents at indices 0, 1 and 2 use the menu mean,
indices 3 and 4 use `maxVol`, and no opponent draws randomly. -/
theorem mixed_strategy_bands (cfg : Config) (vol : List ℚ) (ri : ℕ → ℕ) (team r : ℕ)
    (hs : cfg.opponent_strategy = "mixed") :
    opponentVolStep cfg vol ri team r =
      if 3 * team ≤ cfg.num_teams then .ok (npMeanQ vol, r)
      else if 3 * team ≤ 2 * cfg.num_teams then .ok (cfg.maxVol, r)
      else .ok (vol.getD (ri r % vol.length) 0, r + 1) := by
  have h1 : ((team : ℚ) ≤ (cfg.num_teams : ℚ) / 3) ↔ 3 * team ≤ cfg.num_teams := by
    rw [le_div_iff₀ (by norm_num : (0:ℚ) < 3), ← Nat.cast_le (α := ℚ)]
    push_cast
    constructor <;> intro h <;> linarith
  have h2 : ((team : ℚ) ≤ 2 * ((cfg.num_teams : ℚ) / 3)) ↔
      3 * team ≤ 2 * cfg.num_teams := by
    rw [show 2 * ((cfg.num_teams : ℚ) / 3) = (2 * (cfg.num_teams : ℚ)) / 3 from by ring,
      le_div_iff₀ (by norm_num : (0:ℚ) < 3), ← Nat.cast_le (α := ℚ)]
    push_cast
    constructor <;> intro h <;> linarith
  unfold opponentVolStep
  rw [hs]
  rw [if_neg (by decide), if_neg (by decide), if_neg (by decide), if_pos rfl]
  by_cases hb1 : 3 * team ≤ cfg.num_teams
  · rw [if_pos (h1.mpr hb1), if_pos hb1]
  · rw [if_neg (fun hc => hb1 (h1.mp hc)), if_neg hb1]
    by_cases hb2 : 3 * team ≤ 2 * cfg.num_teams
    · rw [if_pos (h2.mpr hb2), if_pos hb2]
    · rw [if_neg (fun hc => hb2 (h2.mp hc)), if_neg hb2]

/-- Claim C2 witness: the amended bands evaluated at index 4 of the six-team
configuration give `maxVol`. -/
theorem mixed_strategy_bands_witness :
    opponentVolStep cfgMixed6 (npLinspace 1 3 3) riZero 4 0 = .ok (cfgMixed6.maxVol, 0) := by
  rw [mixed_strategy_bands cfgMixed6 (npLinspace 1 3 3) riZero 4 0 rfl]
  rw [if_neg (by decide), if_pos (by decide)]

theorem npEqSum_eq_count (l : List ℚ) (v : ℚ) : npEqSum l v = l.count v := by
  induction l with
  | nil => rfl
  | cons x xs ih =>
    unfold npEqSum at *
    rw [List.map_cons, List.sum_cons, List.count_cons, ih]
    by_cases h : x = v
    · simp [h, Nat.add_comm]
    · simp [h]

/-- Claim C9: the three aggregate statistics computed by the engine
(lines 188-205) coincide exactly with an independent recomputation from the
per-trial rank arrays following the spec's formulas: finals frequency is the
count of rank-1 trials plus the count of rank-2 trials, probability is
frequency over trial count, and edge is
`freq / ((2*trials - freq) / (teamCount - 1))`. -/
theorem aggregate_round_trip (ranks : List ℚ) (trials n : ℕ) :
    freqFinals ranks = specFinalsFrequency ranks ∧
    probFinals ranks trials = specFinalsProbability ranks trials ∧
    edgeStat ranks trials n = specEdge ranks trials n := by
  have hf : freqFinals ranks = specFinalsFrequency ranks := by
    unfold freqFinals specFinalsFrequency
    rw [npEqSum_eq_count, npEqSum_eq_count]
  refine ⟨hf, ?_, ?_⟩
  · unfold probFinals specFinalsProbability
    rw [hf]
  · unfold edgeStat specEdge
    rw [hf]

theorem npWhereEq_cons {α : Type} [DecidableEq α] [Inhabited α] (x : α) (xs : List α) (v : α) :
    npWhereEq (x :: xs) v =
      (if x = v then [0] else []) ++ (npWhereEq xs v).map Nat.succ := by
  unfold npWhereEq
  rw [List.length_cons, List.range_succ_eq_map, List.filter_cons, List.filter_map]
  have hcomp : ((fun i => decide ((x :: xs).getD i default = v)) ∘ Nat.succ) =
      (fun i => decide (xs.getD i default = v)) := by
    funext i
    simp [List.getD_cons_succ]
  rw [hcomp]
  by_cases h : x = v <;> simp [h, List.getD_cons_zero]

theorem npWhereEq_length {α : Type} [DecidableEq α] [Inhabited α] (l : List α) (v : α) :
    (npWhereEq l v).length = l.count v := by
  induction l with
  | nil => rfl
  | cons x xs ih =>
    rw [npWhereEq_cons, List.length_append, List.length_map, ih, List.count_cons]
    by_cases h : x = v <;> simp [h, Nat.add_comm]

theorem npWhereEq_mem {α : Type} [DecidableEq α] [Inhabited α] {l : List α} {v : α} {i : ℕ}
    (h : i ∈ npWhereEq l v) : i < l.length ∧ l.getD i default = v := by
  unfold npWhereEq at h
  rw [List.mem_filter] at h
  exact ⟨List.mem_range.mp h.1, of_decide_eq_true h.2⟩

theorem length_one_eq {α : Type} {l : List α} (h : l.length = 1) : ∃ a, l = [a] := by
  rcases l with _ | ⟨a, _ | ⟨b, t⟩⟩
  · cases h
  · exact ⟨a, rfl⟩
  · simp [List.length_cons] at h

theorem npMaxD_spec {α : Type} [LinearOrder α] [Inhabited α] {l : List α} (h : l ≠ []) :
    npMaxD l ∈ l ∧ ∀ x ∈ l, x ≤ npMaxD l := by
  rcases hm : l.maximum with _ | m
  · rw [List.maximum_eq_none] at hm
    exact absurd hm h
  · have hv : npMaxD l = m := by
      unfold npMaxD
      rw [hm]
      exact WithBot.unbot'_coe default m
    rw [hv]
    exact ⟨List.maximum_mem hm, fun x hx => List.le_maximum_of_mem hx hm⟩

/-- Claim C5 counterexample: a two-team tie makes the leaderboard
computation RAISE (the `.item()` extraction fails on a size-2 index array),
instead of succeeding with a scan-order tie-break as the claim asserts. -/
theorem leaderboard_tie_counterexample :
    argpartTop2 ([1, 1] : List ℚ) =
      .error ("can only convert an array of size 1 to a Python scalar") := by
  with_unfolding_all decide

/-- Claim C5 (amended): the leaderboard computation succeeds exactly in the
tie-free situation — when the maximum value and the second value (the
maximum after removing one occurrence of the maximum) each occur exactly
once, it returns the unique argmax and the unique arg-second, which are two
distinct team indices; when either of the top-two values is shared by
several teams, the computation raises instead of tie-breaking. -/
theorem leaderboard_unique_top2 (l : List ℚ) (h2 : 2 ≤ l.length)
    (hmax : l.count (npMaxD l) = 1) (hsec : l.count (npSecondD l) = 1) :
    ∃ i1 i2, argpartTop2 l = .ok (i1, i2) ∧ i1 ≠ i2 ∧
      l.getD i1 0 = npMaxD l ∧ l.getD i2 0 = npSecondD l ∧
      (∀ x ∈ l, x ≤ l.getD i1 0) ∧
      (∀ x ∈ l.erase (npMaxD l), x ≤ l.getD i2 0) := by
  have hd0 : (default : ℚ) = 0 := rfl
  have hne : l ≠ [] := by
    intro h0
    rw [h0] at h2
    simp at h2
  have hmaxs := npMaxD_spec hne
  obtain ⟨i1, hi1⟩ := length_one_eq ((npWhereEq_length l (npMaxD l)).trans hmax)
  obtain ⟨i2, hi2⟩ := length_one_eq ((npWhereEq_length l (npSecondD l)).trans hsec)
  have hmem1 := npWhereEq_mem (hi1 ▸ List.mem_singleton_self i1)
  have hmem2 := npWhereEq_mem (hi2 ▸ List.mem_singleton_self i2)
  have hnotin : npMaxD l ∉ l.erase (npMaxD l) := by
    intro hc
    have hcnt := List.count_erase_self (npMaxD l) l
    rw [hmax] at hcnt
    have := List.count_pos_iff.mpr hc
    omega
  have herase_ne : l.erase (npMaxD l) ≠ [] := by
    have hlen := List.length_erase_of_mem hmaxs.1
    intro hc
    rw [hc] at hlen
    simp at hlen
    omega
  have hsecs : npSecondD l ∈ l.erase (npMaxD l) ∧
      ∀ x ∈ l.erase (npMaxD l), x ≤ npSecondD l := npMaxD_spec herase_ne
  have hvalne : npMaxD l ≠ npSecondD l := by
    intro hc
    exact hnotin (hc ▸ hsecs.1)
  have hv1 : l.getD i1 0 = npMaxD l := by
    rw [← hd0]
    exact hmem1.2
  have hv2 : l.getD i2 0 = npSecondD l := by
    rw [← hd0]
    exact hmem2.2
  refine ⟨i1, i2, ?_, ?_, hv1, hv2, ?_, ?_⟩
  · unfold argpartTop2
    rw [if_neg (by omega), hi1, hi2]
    rfl
  · intro hc
    subst hc
    exact hvalne (hv1.symm.trans hv2)
  · rw [hv1]
    exact hmaxs.2
  · rw [hv2]
    exact hsecs.2

/-- Claim C5 witness: on the tie-free array `[1, 3, 2]` the leaderboard
computation succeeds with two distinct indices. -/
theorem leaderboard_unique_top2_witness :
    ∃ i1 i2, argpartTop2 ([1, 3, 2] : List ℚ) = .ok (i1, i2) ∧ i1 ≠ i2 ∧
      ([1, 3, 2] : List ℚ).getD i1 0 = npMaxD ([1, 3, 2] : List ℚ) ∧
      ([1, 3, 2] : List ℚ).getD i2 0 = npSecondD ([1, 3, 2] : List ℚ) ∧
      (∀ x ∈ ([1, 3, 2] : List ℚ), x ≤ ([1, 3, 2] : List ℚ).getD i1 0) ∧
      (∀ x ∈ ([1, 3, 2] : List ℚ).erase (npMaxD ([1, 3, 2] : List ℚ)),
        x ≤ ([1, 3, 2] : List ℚ).getD i2 0) :=
  leaderboard_unique_top2 [1, 3, 2] (by decide)
    (by with_unfolding_all decide) (by with_unfolding_all decide)

/-- Evaluation scheme for `sharpe` at concrete inputs: mean and variance are
rational computations, the two square roots are supplied explicitly. -/
theorem sharpe_eval (A : ℕ) (rf : ℚ) (d : ℕ) (row : List ℚ) (m v : ℚ) (r sA : ℝ)
    (hm : npMeanQ (row.map (fun x => x - rf)) = m)
    (hv : npVarQ d (row.map (fun x => x - rf)) = v)
    (hr : Real.sqrt ((v : ℚ) : ℝ) = r)
    (hA : Real.sqrt ((A : ℕ) : ℝ) = sA) :
    sharpe A rf d row = (m : ℝ) / r * sA := by
  unfold sharpe npStdQ
  rw [hm, hv, hr, hA]

theorem sqrt_four : Real.sqrt ((4 : ℕ) : ℝ) = 2 := by
  rw [show (((4 : ℕ) : ℝ)) = (2 : ℝ) ^ 2 by norm_num, Real.sqrt_sq (by norm_num)]

theorem sharpe_eval_01_pop : sharpe 4 0 0 [0, 1] = 2 := by
  rw [sharpe_eval 4 0 0 [0, 1] (1/2) (1/4) (1/2) 2
    (by with_unfolding_all decide) (by with_unfolding_all decide)
    (by
      rw [show (((1/4 : ℚ)) : ℝ) = (1/2 : ℝ) ^ 2 by norm_num, Real.sqrt_sq (by norm_num)])
    sqrt_four]
  norm_num

theorem sharpe_eval_01_bessel : sharpe 4 0 1 [0, 1] = Real.sqrt 2 := by
  rw [sharpe_eval 4 0 1 [0, 1] (1/2) (1/2) (Real.sqrt 2 / 2) 2
    (by with_unfolding_all decide) (by with_unfolding_all decide)
    (by
      have h2 : ((2 : ℝ)) = (Real.sqrt 2) ^ 2 := by
        rw [Real.sq_sqrt (by norm_num : (0:ℝ) ≤ 2)]
      rw [show (((1/2 : ℚ)) : ℝ) = (Real.sqrt 2 / 2) ^ 2 by
        rw [div_pow, ← h2]
        norm_num]
      exact Real.sqrt_sq (by positivity))
    sqrt_four]
  have hpos : 0 < Real.sqrt 2 := Real.sqrt_pos.mpr (by norm_num)
  field_simp

/-- Claim C4 counterexample: on the single-team history `[[0, 1]]` with
`annual_trading_days = 4` and zero risk-free rate, the terminal Sharpe
computation of source line 177 yields 2, while the claimed Bessel-corrected
(`ddof = 1`) formula yields `√2 ≠ 2` — the terminal evaluation does NOT use
the same sample standard deviation as the in-trial evaluation. -/
theorem terminal_sharpe_counterexample :
    sharpeRatioFinal 4 0 [[0, 1]] ≠ [sharpe 4 0 1 [0, 1]] := by
  intro h
  have hhead : sharpe 4 0 0 [0, 1] = sharpe 4 0 1 [0, 1] := by
    have h' : [sharpe 4 0 0 [0, 1]] = [sharpe 4 0 1 [0, 1]] := h
    exact (List.cons.inj h').1
  rw [sharpe_eval_01_pop, sharpe_eval_01_bessel] at hhead
  have hlt : Real.sqrt 2 < 2 :=
    (Real.sqrt_lt' (by norm_num)).mpr (by norm_num)
  rw [← hhead] at hlt
  exact absurd hlt (by norm_num)

theorem sqrt_ratio_helper (m a s nn n1 : ℝ) (hs : 0 ≤ s) (hnn : 0 < nn) (hn1 : 0 < n1) :
    m / Real.sqrt (s / nn) * a = m / Real.sqrt (s / n1) * a * Real.sqrt (nn / n1) := by
  rcases eq_or_lt_of_le hs with hs0 | hs0
  · rw [← hs0]
    simp
  · rw [Real.sqrt_div hs0.le nn, Real.sqrt_div hs0.le n1,
      Real.sqrt_div hnn.le n1]
    have hss : Real.sqrt s ≠ 0 := ne_of_gt (Real.sqrt_pos.mpr hs0)
    have hnns : Real.sqrt nn ≠ 0 := ne_of_gt (Real.sqrt_pos.mpr hnn)
    have hn1s : Real.sqrt n1 ≠ 0 := ne_of_gt (Real.sqrt_pos.mpr hn1)
    field_simp
    ring

/-- Claim C4 (amended): the terminal (line 177) Sharpe ratio does NOT reuse
the Bessel-corrected computation of line 160; it uses the population
standard deviation (`ddof = 0`), so for rows of length `N ≥ 2` it equals the
Bessel-corrected (`ddof = 1`) Sharpe ratio multiplied by `√(N / (N-1))`. -/
theorem sharpe_ddof_relation (A : ℕ) (rf : ℚ) (row : List ℚ) (h2 : 2 ≤ row.length) :
    sharpe A rf 0 row = sharpe A rf 1 row *
      Real.sqrt ((row.length : ℝ) / ((row.length - 1 : ℕ) : ℝ)) := by
  unfold sharpe npStdQ npVarQ
  simp only [Nat.sub_zero]
  set e := row.map (fun x => x - rf) with he
  have hlen : e.length = row.length := List.length_map _ _
  set s : ℚ := (e.map (fun x => (x - npMeanQ e) ^ 2)).sum with hs
  have hsnn : (0:ℚ) ≤ s := by
    rw [hs]
    apply List.sum_nonneg
    intro x hx
    obtain ⟨y, _, rfl⟩ := List.mem_map.mp hx
    positivity
  have hcast0 : (((s / ((e.length : ℕ) : ℚ)) : ℚ) : ℝ) = (s : ℝ) / (row.length : ℝ) := by
    rw [hlen]
    push_cast
    rfl
  have hcast1 : (((s / ((e.length - 1 : ℕ) : ℚ)) : ℚ) : ℝ) =
      (s : ℝ) / ((row.length - 1 : ℕ) : ℝ) := by
    rw [hlen]
    push_cast
    rfl
  rw [hcast0, hcast1]
  exact sqrt_ratio_helper ((npMeanQ e : ℚ) : ℝ) (Real.sqrt ((A : ℕ) : ℝ)) ((s : ℚ) : ℝ)
    ((row.length : ℕ) : ℝ) ((row.length - 1 : ℕ) : ℝ)
    (by exact_mod_cast hsnn)
    (by
      have : 0 < row.length := by omega
      exact_mod_cast this)
    (by
      have : 0 < row.length - 1 := by omega
      exact_mod_cast this)

/-- Claim C4 (amended, vector form): for a history whose rows all have at
least 2 columns, the terminal per-team Sharpe vector of source line 177
equals the Bessel-corrected (`ddof = 1`, line 160) per-team Sharpe formula
multiplied per team by the correction factor `√(N / (N-1))` — it is NOT the
same computation as the in-trial evaluation. -/
theorem terminal_sharpe_ddof (A : ℕ) (rf : ℚ) (hist : List (List ℚ))
    (hrows : ∀ row ∈ hist, 2 ≤ row.length) :
    sharpeRatioFinal A rf hist = hist.map (fun row =>
      sharpe A rf 1 row * Real.sqrt ((row.length : ℝ) / ((row.length - 1 : ℕ) : ℝ))) := by
  unfold sharpeRatioFinal
  exact List.map_congr_left (fun row hmem => sharpe_ddof_relation A rf row (hrows row hmem))

/-- Claim C4 witness: the ddof relation evaluated on the concrete one-row
history `[[0, 1]]` (row length 2). -/
theorem terminal_sharpe_ddof_witness :
    sharpeRatioFinal 4 0 [[0, 1]] = ([[0, 1]] : List (List ℚ)).map (fun row =>
      sharpe 4 0 1 row * Real.sqrt ((row.length : ℝ) / ((row.length - 1 : ℕ) : ℝ))) :=
  terminal_sharpe_ddof 4 0 [[0, 1]] (by
    intro row hrow
    rw [List.mem_singleton.mp hrow]
    decide)

/-- A two-team, two-day configuration for exercising the trial-end
computation. -/
def cfgRank : Config :=
  { annual_trading_days := 4
  , maxVol := 1
  , minVol := 1
  , riskFreeReturn := 0
  , drift := 0
  , opponent_strategy := "high"
  , num_portfolio_return_distributions := 1
  , num_teams := 2
  , simulation_length_days := 2
  , trials := 1 }

/-- An end-of-trial state: team 0's returns were `[0, 1]` and the focal
team's (index 1) returns were `[1/2, 3/4]`. -/
def stRank : TrialState :=
  { earnings := [1, 1]
  , hist := [[0, 1], [1/2, 3/4]]
  , teamInd1E := 0
  , teamInd2E := 0
  , teamInd1SR := 0
  , teamInd2SR := 0
  , rng := 0 }

theorem sharpe_eval_half_pop : sharpe 4 0 0 [1/2, 3/4] = 10 := by
  rw [sharpe_eval 4 0 0 [1/2, 3/4] (5/8) (1/64) (1/8) 2
    (by with_unfolding_all decide) (by with_unfolding_all decide)
    (by
      rw [show (((1/64 : ℚ)) : ℝ) = (1/8 : ℝ) ^ 2 by norm_num, Real.sqrt_sq (by norm_num)])
    sqrt_four]
  norm_num

/-- Claim C1: the "terminal rank by Sharpe" recorded in the TrialResult is
NOT `teamCount` minus the focal team's position in the ascending sort of the
per-team terminal Sharpe ratios.  On the history `[[0, 1], [1/2, 3/4]]`
(annual days 4, zero risk-free, 2 teams, 2 days) the terminal Sharpe vector
is `[2, 10]`, so the claimed rank of the focal team (index 1) is 1; but the
source (line 182) sorts the LAST DAY'S raw-return column `[1, 3/4]` instead,
recording rank 2. -/
theorem terminal_rank_by_sharpe_bug :
    (mkTrialResult cfgRank stRank).map (fun res => res.rankSR) = .ok 2 ∧
    rankBySharpeClaimed cfgRank stRank = 1 := by
  constructor
  · with_unfolding_all decide
  · unfold rankBySharpeClaimed
    have hvec : sharpeRatioFinal cfgRank.annual_trading_days cfgRank.riskFreeReturn
        stRank.hist = [2, 10] := by
      show sharpeRatioFinal 4 0 [[0, 1], [1/2, 3/4]] = [2, 10]
      unfold sharpeRatioFinal
      rw [List.map_cons, List.map_cons, List.map_nil]
      rw [sharpe_eval_01_pop, sharpe_eval_half_pop]
    rw [hvec]
    show 2 - ascendingPos ([2, 10] : List ℝ) 1 = 1
    have hpos : ascendingPos ([2, 10] : List ℝ) 1 = 1 := by
      unfold ascendingPos
      have hget : ([2, 10] : List ℝ).getD 1 default = 10 := rfl
      rw [hget]
      rw [List.filter_cons, List.filter_cons, List.filter_nil]
      rw [if_pos (decide_eq_true (by norm_num : (2:ℝ) < 10))]
      rw [if_neg (fun hc => absurd (of_decide_eq_true hc) (by norm_num))]
      rfl
    rw [hpos]
